import Mathlib

/-!
Shallow embedding of the annotation-extraction engine of `src/yaget.py`.

Modelling conventions:
* a line of text and a path are `List Char`; file lines carry no trailing
  newline terminator;
* the Python regex class `\s` and `str.strip()` are modelled over the ASCII
  whitespace characters;
* the filesystem seen by `os.walk` is an explicit tree value (`FSEntry`),
  listing entries in the deterministic order of one directory snapshot;
* a Python function that may raise maps to `Except`: an uncaught exception
  is `Except.error`, propagated by the caller.
-/

namespace Yaget

/-- ASCII whitespace: the characters matched by the regex class `\s`
(and stripped by `str.strip()`), restricted to ASCII. -/
def wsChar (c : Char) : Bool :=
  c == ' ' || c == '\t' || c == '\n' || c == '\r' || c == '\x0b' || c == '\x0c'

/-- Drop leading whitespace, as the regex `^\s*` consumes it. -/
def dropWs (l : List Char) : List Char := l.dropWhile wsChar

/-- Python `str.strip()`: remove leading and trailing whitespace. -/
def pyStrip (l : List Char) : List Char :=
  ((l.dropWhile wsChar).reverse.dropWhile wsChar).reverse

/-- The comment-introducer alternation `(#|//|<!--)` shared by the two marker
regexes of `src/yaget.py`; returns the remainder of the line after the
introducer when one of the three alternatives matches at the front. -/
def stripIntro : List Char → Option (List Char)
  | '#' :: r => some r
  | '/' :: '/' :: r => some r
  | '<' :: '!' :: '-' :: '-' :: r => some r
  | _ => none

/-- `is_todo_comment` (src/yaget.py lines 99-105):
`re.match(r'^\s*(#|//|<!--)\s*TODO(?!.*ENDTODO)', line)` viewed as a boolean.
The negative lookahead scans the remainder of the line after the matched
`TODO`, and regex `.` does not cross a newline character. -/
def is_todo_comment (line : List Char) : Bool :=
  match stripIntro (dropWs line) with
  | none => false
  | some r =>
    let r2 := dropWs r
    if r2.take 4 = "TODO".toList then
      !(decide ("ENDTODO".toList <:+: (r2.drop 4).takeWhile (· != '\n')))
    else false

/-- `is_endtodo_comment` (src/yaget.py lines 108-114):
`re.match(r'^\s*(#|//|<!--)\s*ENDTODO', line)` viewed as a boolean. -/
def is_endtodo_comment (line : List Char) : Bool :=
  match stripIntro (dropWs line) with
  | none => false
  | some r => decide ((dropWs r).take 7 = "ENDTODO".toList)

/-- `capture_context` (src/yaget.py lines 127-139). `content[start:index+1]`
is the slice from the clamped start through the marker line, and the
forward walk appends each of at most `max_lines_after` following lines,
stopping before a line recognized by `is_endtodo_comment`. Natural-number
subtraction renders Python's `max(line_index - before_lines, 0)`. -/
def capture_context (content : List (List Char))
    (line_index before_lines max_lines_after : Nat) : List (List Char) :=
  let start_index := line_index - before_lines
  ((content.drop start_index).take (line_index + 1 - start_index))
    ++ (((content.drop (line_index + 1)).take max_lines_after).takeWhile
          (fun l => !is_endtodo_comment l))

/-- `extract_todos` (src/yaget.py lines 117-124): one `(stripped line,
context)` pair per line index recognized by `is_todo_comment`, in ascending
line order. -/
def extract_todos (file_content : List (List Char))
    (before_lines max_lines_after : Nat) : List (List Char × List (List Char)) :=
  file_content.enum.filterMap (fun p =>
    if is_todo_comment p.2 then
      some (pyStrip p.2, capture_context file_content p.1 before_lines max_lines_after)
    else none)

/-- `load_ignore_list` (src/yaget.py lines 39-54), applied to the raw lines
of an existing `.yagetignore` file: keep each line whose stripped form is
non-empty and whose *raw* form does not start with `#`, as its stripped
form. -/
def load_ignore_list (raw_lines : List (List Char)) : List (List Char) :=
  raw_lines.filterMap (fun line =>
    if pyStrip line ≠ [] ∧ line.head? ≠ some '#' then some (pyStrip line)
    else none)

/-- Python `ignore_entry.rstrip('/')`: drop every trailing `'/'`. -/
def pyRstripSlash (e : List Char) : List Char :=
  (e.reverse.dropWhile (· == '/')).reverse

/-- `should_ignore` (src/yaget.py lines 57-71), phrased on the relative path
that `os.path.relpath(path, project_directory)` yields: a rule ending in
`'/'` matches when the relative path starts with the rule minus its
trailing slashes, any other rule matches on exact equality; `any` renders
the first-match-wins loop. -/
def should_ignore (rel_path : List Char) (ignore_list : List (List Char)) : Bool :=
  ignore_list.any (fun e =>
    if e.getLast? = some '/' then (pyRstripSlash e).isPrefixOf rel_path
    else rel_path == e)

/-- One component-joined relative path, as `os.path.join` produces beneath
the project root. -/
def relJoin : List (List Char) → List Char
  | [] => []
  | [c] => c
  | c :: cs => c ++ '/' :: relJoin cs

/-- A directory-tree snapshot: what `os.walk` enumerates, children in the
fixed order of the snapshot. A file carries its line contents (what
`read_file` would return, modulo newline terminators). -/
inductive FSEntry : Type
  | file (name : List Char) (content : List (List Char))
  | dir (name : List Char) (children : List FSEntry)

/-- The default extension allow-list of `list_project_files`
(src/yaget.py lines 75-77). -/
def defaultExtensions : List (List Char) :=
  [".py", ".cpp", ".h", ".java", ".js", ".html", ".sh"].map String.toList

/-- The per-directory file pass of `list_project_files` (src/yaget.py lines
85-90): emit `(relative path, content)` for each file entry whose name ends
with an allowed extension and which `should_ignore` does not exclude. -/
def filesHere (ignore_list exts : List (List Char)) (path : List (List Char)) :
    List FSEntry → List (List Char × List (List Char))
  | [] => []
  | FSEntry.file n c :: es =>
      (if exts.any (fun ext => ext.isSuffixOf n)
          && !should_ignore (relJoin (path ++ [n])) ignore_list
       then [(relJoin (path ++ [n]), c)] else [])
      ++ filesHere ignore_list exts path es
  | FSEntry.dir _ _ :: es => filesHere ignore_list exts path es

mutual
/-- Descent into one directory entry of `os.walk`: a subdirectory in the
ignore list is pruned before descending (`dirs[:] = ...`, src/yaget.py
lines 81-84); otherwise its files are listed first and then its
subdirectories are walked, top-down. -/
def walkEntry (ignore_list exts : List (List Char)) (path : List (List Char)) :
    FSEntry → List (List Char × List (List Char))
  | FSEntry.file _ _ => []
  | FSEntry.dir n cs =>
      if should_ignore (relJoin (path ++ [n])) ignore_list then []
      else filesHere ignore_list exts (path ++ [n]) cs
           ++ walkList ignore_list exts (path ++ [n]) cs

/-- Walk the subdirectory entries of one directory in snapshot order. -/
def walkList (ignore_list exts : List (List Char)) (path : List (List Char)) :
    List FSEntry → List (List Char × List (List Char))
  | [] => []
  | e :: es => walkEntry ignore_list exts path e ++ walkList ignore_list exts path es
end

/-- The full walk of `list_project_files` from the project root, keeping
each surviving file's content alongside its path (the content is what
`read_file` returns for that path in this snapshot). -/
def walkFiles (ignore_list exts : List (List Char)) (tree : List FSEntry) :
    List (List Char × List (List Char)) :=
  filesHere ignore_list exts [] tree ++ walkList ignore_list exts [] tree

/-- `list_project_files` (src/yaget.py lines 74-91): the pruned `os.walk`
traversal, yielding the kept file paths in walk order. -/
def list_project_files (tree : List FSEntry) (ignore_list : List (List Char))
    (exts : List (List Char)) : List (List Char) :=
  (walkFiles ignore_list exts tree).map Prod.fst

/-- `scan_files_for_todos` (src/yaget.py lines 142-159): list the project
files with the default extensions, read each, and append one
`(todo, context, file_path)` triple per extracted TODO, in file order then
line order. -/
def scan_files_for_todos (tree : List FSEntry) (ignore_list : List (List Char))
    (before_lines max_lines_after : Nat) :
    List (List Char × List (List Char) × List Char) :=
  (walkFiles ignore_list defaultExtensions tree).flatMap (fun pc =>
    (extract_todos pc.2 before_lines max_lines_after).map (fun tc => (tc.1, tc.2, pc.1)))

/-- The input variables of the prompt template (src/yaget.py lines 172-176). -/
structure GenerationRequest where
  todo : List Char
  context : List Char
  file_path : List Char
deriving DecidableEq

/-- The collaborator's response object, reduced to the field the orchestrator
reads for text (`response.content`); presentation metadata is omitted. -/
structure AIMessage where
  content : List Char
deriving DecidableEq

/-- One `snippet_info` record (src/yaget.py lines 210-216), minus the
presentation-only metadata summary. -/
structure SnippetInfo where
  file : List Char
  todo : List Char
  context : List Char
  generated_snippet : List Char
deriving DecidableEq

/-- The sentinel text substituted for a falsy collaborator response
(src/yaget.py line 198). -/
def sentinelText : List Char := "No suggestion generated.".toList

/-- `generate_prompts_and_snippets` (src/yaget.py lines 162-223): one
collaborator call per TODO triple. `invoke` models `sequence.invoke`: a
raised exception is `Except.error` and, being uncaught in the source,
aborts the whole batch; a normal return carries `Option AIMessage`, where
`none` is a falsy response, for which the sentinel text is substituted. -/
def generate_prompts_and_snippets {ε : Type}
    (invoke : GenerationRequest → Except ε (Option AIMessage)) :
    List (List Char × List (List Char) × List Char) → Except ε (List SnippetInfo)
  | [] => Except.ok []
  | t :: rest =>
    let context_snippet := t.2.1.flatten
    match invoke { todo := t.1, context := context_snippet, file_path := t.2.2 } with
    | Except.error e => Except.error e
    | Except.ok response =>
      let generated_text := match response with
        | some r => r.content
        | none => sentinelText
      match generate_prompts_and_snippets invoke rest with
      | Except.error e => Except.error e
      | Except.ok results =>
          Except.ok ({ file := t.2.2, todo := t.1, context := pyStrip context_snippet,
                       generated_snippet := pyStrip generated_text } :: results)

/-- Modelled from the spec wording of the start-marker contract (C4): after
leading whitespace the line begins with a comment introducer, optional
whitespace and the literal `TODO`, and the line does not also contain
`ENDTODO`. This definition follows the claim's words; it is compared
against `is_todo_comment`, which follows the source. -/
def isStartMarkerSpec (line : List Char) : Bool :=
  (match stripIntro (dropWs line) with
   | none => false
   | some r => decide ((dropWs r).take 4 = "TODO".toList))
  && !(decide ("ENDTODO".toList <:+: line))

/-! ### Helper lemmas -/

/-- A list whose first four characters read `TODO` cannot have its first
seven characters read `ENDTODO`. -/
theorem take_todo_ne_take_endtodo (l : List Char) (h : l.take 4 = "TODO".toList) :
    l.take 7 ≠ "ENDTODO".toList := by
  cases l with
  | nil => exact absurd h (by decide)
  | cons c rest =>
    intro h7
    have hc : c :: rest.take 3 = "TODO".toList := h
    have h1 : some c = some 'T' := congrArg List.head? hc
    have hc7 : c :: rest.take 6 = "ENDTODO".toList := h7
    have h2 : some c = some 'E' := congrArg List.head? hc7
    have : ('T' : Char) = 'E' := Option.some.inj ((h1.symm).trans h2)
    exact absurd this (by decide)

/-- Unfolding of the introducer matcher. -/
theorem stripIntro_eq_some (l r : List Char) (h : stripIntro l = some r) :
    l = '#' :: r ∨ l = '/' :: '/' :: r ∨ l = '<' :: '!' :: '-' :: '-' :: r := by
  unfold stripIntro at h
  split at h <;> simp_all

/-- An occurrence of `a :: p` inside `pre ++ rest` lies inside `rest`
whenever `a` does not occur in `pre`. -/
theorem infix_right_of_first_not_mem {α : Type} (a : α) (p pre rest : List α)
    (hpre : a ∉ pre) (h : (a :: p) <:+: (pre ++ rest)) : (a :: p) <:+: rest := by
  induction pre generalizing rest with
  | nil => simpa using h
  | cons c pre ih =>
    obtain ⟨s, t, hst⟩ := h
    cases s with
    | nil =>
      exfalso
      have : some a = some c := congrArg List.head? hst
      exact hpre (by simp [Option.some.inj this])
    | cons c' s =>
      have hcc : some c' = some c := congrArg List.head? hst
      have htail : s ++ (a :: p) ++ t = pre ++ rest := by
        have := congrArg List.tail hst
        simpa using this
      exact ih rest (fun hm => hpre (List.mem_cons_of_mem _ hm)) ⟨s, t, htail⟩

/-- Dropping trailing characters (through `reverse`/`dropWhile`) from a list
headed by a character that fails the predicate keeps that head. -/
theorem rstrip_head (p : Char → Bool) (a : Char) (t : List Char) (ha : p a = false) :
    (((a :: t).reverse.dropWhile p).reverse).head? = some a := by
  rw [List.reverse_cons, List.dropWhile_append]
  by_cases h : (t.reverse.dropWhile p).isEmpty
  · simp [h, List.dropWhile_cons, ha]
  · simp [h]

/-- `should_ignore` only gets stricter when a rule is appended. -/
theorem should_ignore_mono (p : List Char) (R : List (List Char)) (r : List Char)
    (h : should_ignore p (R ++ [r]) = false) : should_ignore p R = false := by
  unfold should_ignore at h ⊢
  rw [List.any_append] at h
  exact (Bool.or_eq_false_iff.mp h).1

/-! ### Claim theorems -/

/-- Claim C2, evaluated at the failing input: the directory rule `build/`
excludes `build/sub/file.py` as claimed, but — because the implementation
tests `rel_path.startswith(ignore_entry.rstrip('/'))` — it also excludes
`buildup/file.py`, which is not inside the `build` directory. -/
theorem should_ignore_build_rule_eval :
    should_ignore ("build/sub/file.py".toList) ["build/".toList] = true ∧
    should_ignore ("buildup/file.py".toList) ["build/".toList] = true := by
  exact ⟨by decide, by decide⟩

/-- Claim C5: the three-line file `# TODO: fix` / `x=1` / `# ENDTODO`,
scanned with `before_lines = 2` and `max_lines_after = 10`, yields exactly
one annotation unit, whose context is the two lines before the end marker,
the end-marker line excluded. -/
theorem extract_todos_three_line_example :
    extract_todos (["# TODO: fix", "x=1", "# ENDTODO"].map String.toList) 2 10
      = [("# TODO: fix".toList, ["# TODO: fix".toList, "x=1".toList])] := by
  decide

/-- Claim C8: scanning is deterministic — the filesystem snapshot (tree,
entry order, file contents), the rule list and the bounds are the complete
inputs of `scan_files_for_todos`, so two runs over the same unmodified
inputs produce the same ordered sequence of annotation units. -/
theorem scan_files_for_todos_deterministic (tree : List FSEntry)
    (ignore_list : List (List Char)) (before_lines max_lines_after : Nat) :
    scan_files_for_todos tree ignore_list before_lines max_lines_after
      = scan_files_for_todos tree ignore_list before_lines max_lines_after := rfl

/-- Claim C9: no line is simultaneously a start marker and an end marker —
after the shared introducer both predicates inspect the same
whitespace-stripped remainder, which cannot begin with both `TODO` and
`ENDTODO`. -/
theorem markers_mutually_exclusive (line : List Char) :
    (is_todo_comment line && is_endtodo_comment line) = false := by
  unfold is_todo_comment is_endtodo_comment
  cases h : stripIntro (dropWs line) with
  | none => rfl
  | some r =>
    by_cases h4 : (dropWs r).take 4 = "TODO".toList
    · have h7 := take_todo_ne_take_endtodo (dropWs r) h4
      simp [h4]
      intro _
      exact h7
    · simp [h4]
      intro h4'
      exact absurd h4' h4

/-- Claim C7, three edge cases of `capture_context`: a marker at line 0
clamps the window start to 0 and contributes no prefix line; a zero
look-ahead bound yields exactly the prefix-plus-marker slice; and a
one-line file consisting only of the marker line captures exactly that
line. -/
theorem capture_context_edge_cases :
    (∀ (L : List (List Char)) (b m : Nat),
        capture_context L 0 b m
          = L.take 1
            ++ ((L.drop 1).take m).takeWhile (fun l => !is_endtodo_comment l)) ∧
    (∀ (L : List (List Char)) (i b : Nat),
        capture_context L i b 0 = (L.drop (i - b)).take (i + 1 - (i - b))) ∧
    (∀ (l : List Char) (b m : Nat), capture_context [l] 0 b m = [l]) := by
  refine ⟨?_, ?_, ?_⟩
  · intro L b m
    simp [capture_context, Nat.zero_sub]
  · intro L i b
    simp [capture_context]
  · intro l b m
    simp [capture_context, Nat.zero_sub]

/-- Claim C10: in `load_ignore_list` the comment test `line.startswith('#')`
inspects the raw line, before any trimming. A line whose first character is
whitespace and whose first non-whitespace character is `#` is therefore not
dropped as a comment: it becomes a rule, namely its trimmed text, which
starts with `#`. Blankness, by contrast, is judged on the trimmed line. -/
theorem load_ignore_list_raw_comment_test :
    (∀ (c : Char) (l : List Char), wsChar c = true →
        (dropWs (c :: l)).head? = some '#' →
        load_ignore_list [c :: l] = [pyStrip (c :: l)] ∧
        (pyStrip (c :: l)).head? = some '#') ∧
    (∀ line : List Char, pyStrip line = [] → load_ignore_list [line] = []) := by
  constructor
  · intro c l hws hhash
    obtain ⟨t, ht⟩ : ∃ t, (c :: l).dropWhile wsChar = '#' :: t := by
      cases hd : (c :: l).dropWhile wsChar with
      | nil =>
        exfalso
        have hnone : (dropWs (c :: l)).head? = none := by
          unfold dropWs
          rw [hd]
          rfl
        rw [hnone] at hhash
        exact Option.noConfusion hhash
      | cons x xs =>
        have hh : (dropWs (c :: l)).head? = some x := by
          unfold dropWs
          rw [hd]
          rfl
        have hx : x = '#' := Option.some.inj (hh.symm.trans hhash)
        exact ⟨xs, by simp [hd, hx]⟩
    have hps : pyStrip (c :: l) = (('#' :: t).reverse.dropWhile wsChar).reverse := by
      unfold pyStrip
      rw [ht]
    have hhead : (pyStrip (c :: l)).head? = some '#' := by
      rw [hps]
      exact rstrip_head wsChar '#' t (by decide)
    have hne : pyStrip (c :: l) ≠ [] := by
      intro h0
      rw [h0] at hhead
      exact Option.noConfusion hhead
    have hch : (c :: l).head? ≠ some '#' := by
      intro hcon
      have hceq : c = '#' := Option.some.inj hcon
      rw [hceq] at hws
      exact absurd hws (by decide)
    refine ⟨?_, hhead⟩
    unfold load_ignore_list
    rw [List.filterMap_cons]
    rw [if_pos ⟨hne, hch⟩]
    rfl
  · intro line h0
    unfold load_ignore_list
    simp [h0]

/-- Witness for C10 at the concrete line `" #build/"`. -/
theorem load_ignore_list_raw_comment_test_witness :
    wsChar ' ' = true ∧
    (dropWs (' ' :: "#build/".toList)).head? = some '#' ∧
    (load_ignore_list [' ' :: "#build/".toList] = [pyStrip (' ' :: "#build/".toList)] ∧
      (pyStrip (' ' :: "#build/".toList)).head? = some '#') :=
  ⟨by decide, by decide,
    load_ignore_list_raw_comment_test.1 ' ' ("#build/".toList) (by decide) (by decide)⟩

/-- Claim C3, counterexample: `sequence.invoke` is called with no exception
handler, so a collaborator call that raises on the first unit aborts the
whole batch — no sentinel is substituted and no result is produced for the
other unit. -/
theorem generate_aborts_on_raised_error :
    generate_prompts_and_snippets
      (fun req => if req.todo = "# TODO: a".toList
        then (Except.error () : Except Unit (Option AIMessage))
        else Except.ok (some { content := "real suggestion".toList }))
      [("# TODO: a".toList, [], "f1.py".toList),
       ("# TODO: b".toList, [], "f2.py".toList)]
      = Except.error () := rfl

/-- Claim C3 as amended: when every collaborator call returns normally
(including a falsy response), the batch always completes: each falsy
response is replaced by the sentinel `"No suggestion generated."` and every
other unit keeps its real generated text. A raised exception, however, is
not caught and aborts the batch. -/
theorem generate_ok_of_no_raise {ε : Type}
    (respond : GenerationRequest → Option AIMessage)
    (todos : List (List Char × List (List Char) × List Char)) :
    generate_prompts_and_snippets
        (fun req => (Except.ok (respond req) : Except ε (Option AIMessage))) todos
      = Except.ok (todos.map (fun t =>
          { file := t.2.2, todo := t.1, context := pyStrip t.2.1.flatten,
            generated_snippet := pyStrip
              (match respond { todo := t.1, context := t.2.1.flatten,
                               file_path := t.2.2 } with
               | some r => r.content
               | none => sentinelText) })) := by
  induction todos with
  | nil => rfl
  | cons t rest ih =>
    simp [generate_prompts_and_snippets, ih]

/-- Claim C1 as amended: for a start marker at index `i`, the captured
context is the marker line, preceded by at most `before_lines` lines
(clamped at the start of the file) and followed by at most
`max_lines_after` lines, none of the *following* lines satisfying
`is_endtodo_comment`. (The original conjunct that no element at all of the
context is an end-marker line fails for the preceding lines; see the
counterexample.) -/
theorem capture_context_bounds (L : List (List Char)) (i b m : Nat)
    (hi : i < L.length) (hstart : is_todo_comment (L.get ⟨i, hi⟩) = true) :
    ∃ pre post,
      capture_context L i b m = pre ++ L.get ⟨i, hi⟩ :: post ∧
      pre.length ≤ b ∧
      post.length ≤ m ∧
      ∀ l ∈ post, is_endtodo_comment l = false := by
  refine ⟨(L.drop (i - b)).take (i - (i - b)),
          ((L.drop (i + 1)).take m).takeWhile (fun l => !is_endtodo_comment l),
          ?_, ?_, ?_, ?_⟩
  · simp only [capture_context]
    have hk : i + 1 - (i - b) = (i - (i - b)) + 1 := by omega
    have hidx : (L.drop (i - b))[i - (i - b)]? = some (L.get ⟨i, hi⟩) := by
      rw [List.getElem?_drop]
      have hsum : (i - b) + (i - (i - b)) = i := by omega
      rw [hsum]
      exact List.getElem?_eq_getElem hi
    rw [hk, List.take_succ, hidx]
    simp [List.append_assoc]
  · calc ((L.drop (i - b)).take (i - (i - b))).length
        ≤ i - (i - b) := by
          rw [List.length_take]
          omega
      _ ≤ b := by omega
  · calc (((L.drop (i + 1)).take m).takeWhile (fun l => !is_endtodo_comment l)).length
        ≤ ((L.drop (i + 1)).take m).length :=
          (List.takeWhile_sublist _).length_le
      _ ≤ m := by
          rw [List.length_take]
          omega
  · intro l hl
    have := List.mem_takeWhile_imp hl
    simpa using this

/-- Witness for the amended C1 at a concrete one-line file. -/
theorem capture_context_bounds_witness :
    ∃ pre post,
      capture_context ["# TODO x".toList] 0 2 10
        = pre ++ ("# TODO x".toList) :: post ∧
      pre.length ≤ 2 ∧ post.length ≤ 10 ∧
      ∀ l ∈ post, is_endtodo_comment l = false :=
  capture_context_bounds ["# TODO x".toList] 0 2 10 (by decide) (by decide)

/-- Claim C1, counterexample: with an end-marker line immediately before the
marker line and `before_lines = 1`, the captured context contains a line
satisfying `is_endtodo_comment` — the preceding lines are not filtered. -/
theorem capture_context_contains_end_marker :
    is_todo_comment ("# TODO x".toList) = true ∧
    ("# ENDTODO".toList)
      ∈ capture_context ["# ENDTODO".toList, "# TODO x".toList] 1 1 0 ∧
    is_endtodo_comment ("# ENDTODO".toList) = true := by
  decide

/-- Claim C4: on any line (a line of text contains no newline character),
`is_todo_comment` holds exactly when the line, after leading whitespace,
begins with one of the introducers `#`, `//`, `<!--`, optional whitespace
and the literal `TODO`, and the line does not also contain `ENDTODO`; in
particular `// TODO done ENDTODO` is not a start marker. The source checks
`ENDTODO` only after the matched `TODO`, but no earlier position of such a
line can start an `ENDTODO` occurrence, so the two readings agree. -/
theorem is_todo_comment_iff_spec :
    (∀ line : List Char, '\n' ∉ line →
        (is_todo_comment line = true ↔ isStartMarkerSpec line = true)) ∧
    is_todo_comment ("// TODO done ENDTODO".toList) = false := by
  constructor
  · intro line hnl
    unfold is_todo_comment isStartMarkerSpec
    cases h : stripIntro (dropWs line) with
    | none => simp
    | some r =>
      by_cases h4 : (dropWs r).take 4 = "TODO".toList
      · obtain ⟨ic, hic, hicE⟩ : ∃ ic : List Char,
            dropWs line = ic ++ r ∧ 'E' ∉ ic := by
          rcases stripIntro_eq_some _ _ h with h1 | h1 | h1
          · exact ⟨['#'], h1, by decide⟩
          · exact ⟨['/', '/'], h1, by decide⟩
          · exact ⟨['<', '!', '-', '-'], h1, by decide⟩
        have e1 : line.takeWhile wsChar ++ dropWs line = line :=
          List.takeWhile_append_dropWhile wsChar line
        have e2 : r.takeWhile wsChar ++ dropWs r = r :=
          List.takeWhile_append_dropWhile wsChar r
        have e3 : "TODO".toList ++ (dropWs r).drop 4 = dropWs r := by
          rw [← h4]
          exact List.take_append_drop 4 (dropWs r)
        have eline : line
            = (line.takeWhile wsChar ++ ic ++ r.takeWhile wsChar ++ "TODO".toList)
              ++ (dropWs r).drop 4 := by
          symm
          simp only [List.append_assoc]
          rw [e3, e2, ← hic]
          exact e1
        have hE : 'E' ∉ (line.takeWhile wsChar ++ ic ++ r.takeWhile wsChar
            ++ "TODO".toList) := by
          intro hmem
          simp only [List.mem_append] at hmem
          rcases hmem with ((hw | hic') | hw2) | ht
          · exact absurd (List.mem_takeWhile_imp hw) (by decide)
          · exact hicE hic'
          · exact absurd (List.mem_takeWhile_imp hw2) (by decide)
          · exact absurd ht (by decide)
        have hrest : ((dropWs r).drop 4).takeWhile (· != '\n') = (dropWs r).drop 4 := by
          rw [List.takeWhile_eq_self_iff]
          intro x hx
          have hxline : x ∈ line := by
            rw [eline]
            exact List.mem_append_right _ hx
          have hxny : x ≠ '\n' := fun hxe => hnl (hxe ▸ hxline)
          simpa using hxny
        have hiff : ("ENDTODO".toList <:+: (dropWs r).drop 4)
            ↔ ("ENDTODO".toList <:+: line) := by
          constructor
          · intro hin
            obtain ⟨s, t, hst⟩ := hin
            refine ⟨(line.takeWhile wsChar ++ ic ++ r.takeWhile wsChar
              ++ "TODO".toList) ++ s, t, ?_⟩
            conv_rhs => rw [eline, ← hst]
            simp [List.append_assoc]
          · intro hin
            rw [eline] at hin
            exact infix_right_of_first_not_mem 'E' ("NDTODO".toList) _ _ hE hin
        simp only [h4, if_pos]
        simp [hrest]
        exact not_congr hiff
      · simp [h4]
        intro h4'
        exact absurd h4' h4
  · decide

/-- Witness for C4 at the concrete line `"# TODO: fix"`. -/
theorem is_todo_comment_iff_spec_witness :
    ('\n' ∉ ("# TODO: fix".toList)) ∧
    (is_todo_comment ("# TODO: fix".toList) = true
      ↔ isStartMarkerSpec ("# TODO: fix".toList) = true) :=
  ⟨by decide, is_todo_comment_iff_spec.1 ("# TODO: fix".toList) (by decide)⟩

/-- A file kept by the per-directory pass under an extended rule list is
kept under the original rule list. -/
theorem filesHere_mono (R : List (List Char)) (r : List Char)
    (exts : List (List Char)) (path : List (List Char)) (es : List FSEntry)
    (x : List Char × List (List Char))
    (hx : x ∈ filesHere (R ++ [r]) exts path es) : x ∈ filesHere R exts path es := by
  induction es with
  | nil => simpa [filesHere] using hx
  | cons e es ih =>
    cases e with
    | file n c =>
      simp only [filesHere, List.mem_append] at hx ⊢
      rcases hx with hx | hx
      · left
        split at hx
        · rename_i hcond
          rw [Bool.and_eq_true] at hcond
          have hext := hcond.1
          have hsi : should_ignore (relJoin (path ++ [n])) (R ++ [r]) = false := by
            have := hcond.2
            simpa using this
          have hsiR := should_ignore_mono _ R r hsi
          rw [if_pos (by simp [hext, hsiR])]
          exact hx
        · simp at hx
      · exact Or.inr (ih hx)
    | dir n cs =>
      simp only [filesHere] at hx ⊢
      exact ih hx

mutual
/-- Walking one entry under an extended rule list yields a subset of what
walking it under the original rule list yields. -/
theorem walkEntry_mono (R : List (List Char)) (r : List Char)
    (exts : List (List Char)) (path : List (List Char)) (e : FSEntry)
    (x : List Char × List (List Char))
    (hx : x ∈ walkEntry (R ++ [r]) exts path e) : x ∈ walkEntry R exts path e := by
  cases e with
  | file n c => simpa [walkEntry] using hx
  | dir n cs =>
    rw [walkEntry] at hx
    split at hx
    · simp at hx
    · rename_i hnig
      have hnig' : should_ignore (relJoin (path ++ [n])) (R ++ [r]) = false := by
        simpa using hnig
      have hnigR := should_ignore_mono _ R r hnig'
      rw [walkEntry, if_neg (by simp [hnigR])]
      rw [List.mem_append] at hx ⊢
      rcases hx with hx | hx
      · exact Or.inl (filesHere_mono R r exts _ cs x hx)
      · exact Or.inr (walkList_mono R r exts _ cs x hx)

/-- Walking a list of entries under an extended rule list yields a subset of
what walking it under the original rule list yields. -/
theorem walkList_mono (R : List (List Char)) (r : List Char)
    (exts : List (List Char)) (path : List (List Char)) (es : List FSEntry)
    (x : List Char × List (List Char))
    (hx : x ∈ walkList (R ++ [r]) exts path es) : x ∈ walkList R exts path es := by
  cases es with
  | nil => simpa [walkList] using hx
  | cons e es =>
    rw [walkList] at hx
    rw [walkList]
    rw [List.mem_append] at hx ⊢
    rcases hx with hx | hx
    · exact Or.inl (walkEntry_mono R r exts path e x hx)
    · exact Or.inr (walkList_mono R r exts path es x hx)
end

/-- Claim C6: exclusion is monotonic — appending a directory-prefix rule to
the rule list never adds a file to the result of `list_project_files`: the
files listed under `R ++ [rule]` are a subset of those listed under `R`. -/
theorem list_project_files_exclusion_monotone (tree : List FSEntry)
    (R : List (List Char)) (rule : List Char) (exts : List (List Char))
    (hr : rule.getLast? = some '/') (f : List Char)
    (hf : f ∈ list_project_files tree (R ++ [rule]) exts) :
    f ∈ list_project_files tree R exts := by
  unfold list_project_files walkFiles at hf ⊢
  rw [List.map_append, List.mem_append] at hf ⊢
  rcases hf with hf | hf
  · obtain ⟨x, hx, hfx⟩ := List.mem_map.mp hf
    exact Or.inl (List.mem_map.mpr ⟨x, filesHere_mono R rule exts [] tree x hx, hfx⟩)
  · obtain ⟨x, hx, hfx⟩ := List.mem_map.mp hf
    exact Or.inr (List.mem_map.mpr ⟨x, walkList_mono R rule exts [] tree x hx, hfx⟩)

/-- Witness for C6 on a concrete tree: with rule `build/` appended, `b.py`
still listed implies `b.py` listed without the rule. -/
theorem list_project_files_exclusion_monotone_witness :
    (("build/".toList).getLast? = some '/') ∧
    (("b.py".toList) ∈ list_project_files
      [FSEntry.dir ("build".toList) [FSEntry.file ("a.py".toList) []],
       FSEntry.file ("b.py".toList) []]
      ([] ++ ["build/".toList]) defaultExtensions) ∧
    (("b.py".toList) ∈ list_project_files
      [FSEntry.dir ("build".toList) [FSEntry.file ("a.py".toList) []],
       FSEntry.file ("b.py".toList) []]
      [] defaultExtensions) :=
  ⟨by decide, by decide,
    list_project_files_exclusion_monotone
      [FSEntry.dir ("build".toList) [FSEntry.file ("a.py".toList) []],
       FSEntry.file ("b.py".toList) []]
      [] ("build/".toList) defaultExtensions (by decide) ("b.py".toList) (by decide)⟩

end Yaget
